import Mathlib

/-!
Verification of the adversarial-search core of the AIND-Isolation repository.

The embedding models the code in src/game_agent.py (class CustomPlayer:
minimax, alphabeta, get_move) and src/competition/game_agent.py
(class CustomPlayer: alphabeta, get_move).  The board object of the
external isolation engine is consumed by the search only through
active_player / inactive_player, get_legal_moves, forecast_move, utility
and the heuristic score function, so a game state is embedded as a tree:
each node carries the heuristic score of the state for the player to move
and for the waiting player, together with the list of legal moves of the
player to move paired with the forecast successor states.  Baking the
score values into the node quantifies over all deterministic heuristics.

Python floats (scores, utilities) are modelled as integers extended with
the two infinities: Val := WithBot (WithTop Int), where the bottom element
is float("-inf") and the top element is float("inf").  The wall-clock
deadline oracle self.time_left is modelled as a function from the index of
the call (the number of times the oracle has been queried so far) to the
reported remaining milliseconds, a rational number; searches thread the
call counter and a raised Timeout exception is an Except.error.
-/

/-- Extended values: integers together with minus and plus infinity,
modelling the Python floats produced by utilities and heuristics. -/
abbrev Val : Type := WithBot (WithTop Int)

/-- float("-inf") -/
def Val.negInf : Val := ⊥

/-- float("inf") -/
def Val.posInf : Val := ⊤

/-- A finite float value. -/
def Val.fin (n : Int) : Val := ((n : WithTop Int) : Val)

/-- A move is a (row, col) pair of Python ints. -/
abbrev Move : Type := Int × Int

/-- The sentinel used by the source for the absence of a legal move,
bound to the local variable no_legal_moves = (-1, -1). -/
def noMove : Move := (-1, -1)

/-- A game state as the search observes it: the heuristic score of the
state for the active player and for the inactive player, and the legal
moves of the active player, each paired with the state produced by
game.forecast_move(move).  An empty move list is a terminal state. -/
inductive GState where
  | node (scoreA : Val) (scoreI : Val) (children : List (Move × GState))

/-- The legal moves of the active player paired with forecast states,
as returned by game.get_legal_moves(game.active_player) together with
game.forecast_move. -/
def GState.children : GState → List (Move × GState)
  | .node _ _ c => c

/-- The legal-move list of the active player of a state. -/
def movesOf (g : GState) : List Move := g.children.map (fun p => p.1)

/-- Heuristic value self.score(game, current_player), where current_player
is game.active_player on a maximizing layer and game.inactive_player on a
minimizing layer. -/
def GState.score : GState → Bool → Val
  | .node sa _ _, true => sa
  | .node _ si _, false => si

/-- Modelled from the spec: game.utility(player) of the external
isolation.Board is not part of src/; section 4.1 of the spec defines it as
plus infinity if the player has won and minus infinity if the player has
lost, and the search queries it only once the active player has no legal
moves, which by sections 3 and 7 of the spec means the active player has
lost and the inactive player has won.  The argument records whether
current_player is the active player (maximizing layer) or the inactive
player (minimizing layer). -/
def GState.utility (_g : GState) (curIsActive : Bool) : Val :=
  if curIsActive then Val.negInf else Val.posInf

/-- Initial value of the local best_utility:
float("-inf") if maximizing_player else float("inf"). -/
def bestInit (maximizing_player : Bool) : Val :=
  if maximizing_player then Val.negInf else Val.posInf

/-- The for-loop of CustomPlayer.minimax over remaining_legal_moves,
parameterised by the evaluation of a successor state (the recursive call
of which only forecast_utility is kept).  The accumulator carries
(best_utility, best_move); a candidate replaces it only on strict
improvement. -/
def mmLoop (ev : GState → Val) (maximizing_player : Bool) :
    List (Move × GState) → Val × Move → Val × Move
  | [], acc => acc
  | (mv, c) :: rest, acc =>
    let f := ev c
    mmLoop ev maximizing_player rest
      (if maximizing_player then (if acc.1 < f then (f, mv) else acc)
       else (if f < acc.1 then (f, mv) else acc))

/-- CustomPlayer.minimax of src/game_agent.py with the timer check
removed (the timed variant below adds it back).  The depth argument is
placed first so that the recursion is structural in it. -/
def minimax (depth : Nat) (g : GState) (maximizing_player : Bool) : Val × Move :=
  match g.children, depth with
  | [], _ => (g.utility maximizing_player, noMove)
  | p :: _, 0 => (g.score maximizing_player, p.1)
  | p :: l, d + 1 =>
    mmLoop (fun c => (minimax d c (!maximizing_player)).1) maximizing_player
      (p :: l) (bestInit maximizing_player, noMove)

/-- The for-loop of CustomPlayer.alphabeta: as mmLoop, but on improvement
the loop breaks once best_utility ≥ beta (maximizing) or ≤ alpha
(minimizing) and otherwise tightens alpha (resp. beta).  The evaluation
of a successor receives the current alpha and beta. -/
def abLoop (ev : Val → Val → GState → Val) (maximizing_player : Bool) :
    List (Move × GState) → Val → Val → Val × Move → Val × Move
  | [], _, _, acc => acc
  | (mv, c) :: rest, alpha, beta, acc =>
    let f := ev alpha beta c
    if maximizing_player then
      if acc.1 < f then
        if beta ≤ f then (f, mv)
        else abLoop ev maximizing_player rest (max alpha f) beta (f, mv)
      else abLoop ev maximizing_player rest alpha beta acc
    else
      if f < acc.1 then
        if f ≤ alpha then (f, mv)
        else abLoop ev maximizing_player rest alpha (min beta f) (f, mv)
      else abLoop ev maximizing_player rest alpha beta acc

/-- CustomPlayer.alphabeta of src/game_agent.py (identical, apart from
logging, to CustomPlayer.alphabeta of src/competition/game_agent.py) with
the timer check removed. -/
def alphabeta (depth : Nat) (g : GState) (alpha beta : Val)
    (maximizing_player : Bool) : Val × Move :=
  match g.children, depth with
  | [], _ => (g.utility maximizing_player, noMove)
  | p :: _, 0 => (g.score maximizing_player, p.1)
  | p :: l, d + 1 =>
    abLoop (fun a b c => (alphabeta d c a b (!maximizing_player)).1)
      maximizing_player (p :: l) alpha beta (bestInit maximizing_player, noMove)

/-- The deadline oracle self.time_left: the value (remaining milliseconds)
reported at the n-th query, counting all queries made since get_move
started. -/
abbrev Oracle : Type := Nat → ℚ

/-- The for-loop of the timed CustomPlayer.minimax: as mmLoop, but the
evaluation of a successor threads the oracle-query counter and may raise
Timeout (Except.error). -/
def mmLoopT (ev : GState → Nat → Except Unit (Val × Nat))
    (maximizing_player : Bool) :
    List (Move × GState) → Val × Move → Nat → Except Unit ((Val × Move) × Nat)
  | [], acc, t => .ok (acc, t)
  | (mv, c) :: rest, acc, t =>
    match ev c t with
    | .error e => .error e
    | .ok (f, t1) =>
      mmLoopT ev maximizing_player rest
        (if maximizing_player then (if acc.1 < f then (f, mv) else acc)
         else (if f < acc.1 then (f, mv) else acc)) t1

/-- CustomPlayer.minimax of src/game_agent.py.  On entry the node queries
self.time_left() once (consuming index t) and raises Timeout when the
reported value is strictly below self.TIMER_THRESHOLD; otherwise it
proceeds exactly as the untimed minimax.  Returns the (value, move) pair
together with the next unused oracle-query index. -/
def minimaxT (o : Oracle) (thr : ℚ) (depth : Nat) (g : GState)
    (maximizing_player : Bool) (t : Nat) : Except Unit ((Val × Move) × Nat) :=
  if o t < thr then .error () else
  match g.children, depth with
  | [], _ => .ok ((g.utility maximizing_player, noMove), t + 1)
  | p :: _, 0 => .ok ((g.score maximizing_player, p.1), t + 1)
  | p :: l, d + 1 =>
    mmLoopT
      (fun c t1 => Except.map (fun r => (r.1.1, r.2))
        (minimaxT o thr d c (!maximizing_player) t1))
      maximizing_player (p :: l) (bestInit maximizing_player, noMove) (t + 1)

/-- The for-loop of the timed CustomPlayer.alphabeta. -/
def abLoopT (ev : Val → Val → GState → Nat → Except Unit (Val × Nat))
    (maximizing_player : Bool) :
    List (Move × GState) → Val → Val → Val × Move → Nat →
      Except Unit ((Val × Move) × Nat)
  | [], _, _, acc, t => .ok (acc, t)
  | (mv, c) :: rest, alpha, beta, acc, t =>
    match ev alpha beta c t with
    | .error e => .error e
    | .ok (f, t1) =>
      if maximizing_player then
        if acc.1 < f then
          if beta ≤ f then .ok ((f, mv), t1)
          else abLoopT ev maximizing_player rest (max alpha f) beta (f, mv) t1
        else abLoopT ev maximizing_player rest alpha beta acc t1
      else
        if f < acc.1 then
          if f ≤ alpha then .ok ((f, mv), t1)
          else abLoopT ev maximizing_player rest alpha (min beta f) (f, mv) t1
        else abLoopT ev maximizing_player rest alpha beta acc t1

/-- CustomPlayer.alphabeta of src/game_agent.py and, identically, of
src/competition/game_agent.py, with the timer check of its first line. -/
def alphabetaT (o : Oracle) (thr : ℚ) (depth : Nat) (g : GState)
    (alpha beta : Val) (maximizing_player : Bool) (t : Nat) :
    Except Unit ((Val × Move) × Nat) :=
  if o t < thr then .error () else
  match g.children, depth with
  | [], _ => .ok ((g.utility maximizing_player, noMove), t + 1)
  | p :: _, 0 => .ok ((g.score maximizing_player, p.1), t + 1)
  | p :: l, d + 1 =>
    abLoopT
      (fun a b c t1 => Except.map (fun r => (r.1.1, r.2))
        (alphabetaT o thr d c a b (!maximizing_player) t1))
      maximizing_player (p :: l) alpha beta
      (bestInit maximizing_player, noMove) (t + 1)

/-- Outcome of a call to CustomPlayer.get_move.  A Python function either
returns a move, or lets an exception escape: ValueError("Invalid method")
from the method dispatch, or UnboundLocalError from the handler
except Timeout: return best_move when the local best_move was never
assigned.  fuelOut is the artefact of modelling the unbounded
while True loop with fuel: it marks that the loop was still running. -/
inductive GetMoveResult where
  | move (m : Move)
  | valueError
  | nameError
  | fuelOut
deriving DecidableEq

/-- The configuration held by a CustomPlayer instance of
src/game_agent.py: search_depth, iterative, method and TIMER_THRESHOLD
(the score function is already baked into the game states). -/
structure PlayerCfg where
  search_depth : Nat
  iterative : Bool
  method : String
  thr : ℚ

/-- The threshold 0.001 of the check
if self.time_left() <= 0.001: return best_move. -/
def msEps : ℚ := 1 / 1000

/-- The while True loop of get_move in iterative-deepening mode.  State:
remaining fuel, the current value of the local depth, the next unused
oracle-query index, and the local best_move (none while not yet
assigned).  Each round increments depth, dispatches on method, runs the
search, and on success re-queries the oracle: the round returns best_move
when at most 0.001 ms remain, and otherwise loops.  A Timeout escaping
the search is caught and the current best_move returned; if best_move was
never assigned this raises UnboundLocalError (nameError). -/
def iterLoop (cfg : PlayerCfg) (g : GState) (o : Oracle) :
    Nat → Nat → Nat → Option Move → GetMoveResult
  | 0, _, _, _ => .fuelOut
  | fuel + 1, depth, t, best =>
    if cfg.method = "minimax" then
      match minimaxT o cfg.thr (depth + 1) g true t with
      | .error _ =>
        match best with
        | some m => .move m
        | none => .nameError
      | .ok (r, t1) =>
        if o t1 ≤ msEps then .move r.2
        else iterLoop cfg g o fuel (depth + 1) (t1 + 1) (some r.2)
    else if cfg.method = "alphabeta" then
      match alphabetaT o cfg.thr (depth + 1) g Val.negInf Val.posInf true t with
      | .error _ =>
        match best with
        | some m => .move m
        | none => .nameError
      | .ok (r, t1) =>
        if o t1 ≤ msEps then .move r.2
        else iterLoop cfg g o fuel (depth + 1) (t1 + 1) (some r.2)
    else .valueError

/-- CustomPlayer.get_move of src/game_agent.py.  legal_moves is the list
the caller passes in (the isolation engine passes the legal moves of the
active player of game); an empty list returns the sentinel immediately.
Iterative mode runs the fuelled while True loop starting from depth 0
with no best_move assigned; fixed-depth mode runs one search at
search_depth and returns its move, a Timeout there hitting the
same unassigned best_move in the except handler. -/
def getMove (cfg : PlayerCfg) (g : GState) (legal_moves : List Move)
    (o : Oracle) (fuel : Nat) : GetMoveResult :=
  if legal_moves = [] then .move noMove
  else if cfg.iterative then iterLoop cfg g o fuel 0 0 none
  else if cfg.method = "minimax" then
    match minimaxT o cfg.thr cfg.search_depth g true 0 with
    | .ok (r, _) => .move r.2
    | .error _ => .nameError
  else if cfg.method = "alphabeta" then
    match alphabetaT o cfg.thr cfg.search_depth g Val.negInf Val.posInf true 0 with
    | .ok (r, _) => .move r.2
    | .error _ => .nameError
  else .valueError

/-- The while True loop of get_move of src/competition/game_agent.py:
always alphabeta, and the local best_move (third Move argument) was
initialised to (-1, -1) before the loop, so a Timeout always returns a
move. -/
def compLoop (thr : ℚ) (g : GState) (o : Oracle) :
    Nat → Nat → Nat → Move → GetMoveResult
  | 0, _, _, _ => .fuelOut
  | fuel + 1, depth, t, best =>
    match alphabetaT o thr (depth + 1) g Val.negInf Val.posInf true t with
    | .error _ => .move best
    | .ok (r, t1) =>
      if o t1 ≤ msEps then .move r.2
      else compLoop thr g o fuel (depth + 1) (t1 + 1) r.2

/-- CustomPlayer.get_move of src/competition/game_agent.py: reads the
legal moves of the active player from the state, returns the sentinel on
an empty list, sets best_move to the sentinel, draws a starting depth
(random.randint(9, 12), modelled as the parameter depth0) and runs the
iterative-deepening loop. -/
def getMoveComp (thr : ℚ) (g : GState) (o : Oracle) (depth0 : Nat)
    (fuel : Nat) : GetMoveResult :=
  if movesOf g = [] then .move noMove
  else compLoop thr g o fuel depth0 0 noMove

/-- The default CustomPlayer configuration of src/game_agent.py:
search_depth=3, iterative=True, method=minimax, timeout=10. -/
def cfgDefault : PlayerCfg :=
  { search_depth := 3, iterative := true, method := "minimax", thr := 10 }

/-- A state with one legal move whose successor is interior with one
further move; used as a witness input. -/
def gStep : GState :=
  GState.node 0 0
    [((0, 0), GState.node (Val.fin 5) (Val.fin 5) [((9, 9), GState.node 0 0 [])])]

/-- The candidate moves of a node paired with the value the recursive
search assigns to each successor at depth d. -/
def childVals (d : Nat) (mx : Bool) (g : GState) : List (Move × Val) :=
  g.children.map (fun q => (q.1, (minimax d q.2 (!mx)).1))

/-- Amended content of claim C4 at a node with depth d + 1.  Minimax
part: either no successor value strictly improves on the initial
best_utility (all successor values equal it) and the node returns the
initial (bound, sentinel) pair, or the returned (value, move) pair is the
k-th candidate for some k, the value strictly improves on the initial
bound, and every earlier candidate is strictly worse than the returned
value (ties keep the earliest-found move).  Alphabeta part: if the final
best utility still equals the initial bound the sentinel is returned, and
the returned move is either the sentinel or one of the legal moves. -/
def C4Prop (d : Nat) (g : GState) (mx : Bool) (a b : Val) : Prop :=
  ((minimax (d + 1) g mx = (bestInit mx, noMove)
      ∧ ∀ w ∈ childVals d mx g, w.2 = bestInit mx)
    ∨ (∃ k, (childVals d mx g).get? k
          = some ((minimax (d + 1) g mx).2, (minimax (d + 1) g mx).1)
        ∧ (if mx then bestInit mx < (minimax (d + 1) g mx).1
           else (minimax (d + 1) g mx).1 < bestInit mx)
        ∧ ∀ w ∈ (childVals d mx g).take k,
            (if mx then w.2 < (minimax (d + 1) g mx).1
             else (minimax (d + 1) g mx).1 < w.2)))
  ∧ ((alphabeta (d + 1) g a b mx).1 = bestInit mx
      → (alphabeta (d + 1) g a b mx).2 = noMove)
  ∧ ((alphabeta (d + 1) g a b mx).2 = noMove
      ∨ (alphabeta (d + 1) g a b mx).2 ∈ movesOf g)

/-- A state where the single legal move of the active player leads, after
one reply of the opponent, to a state where the original player is to
move and has no moves left: a forced loss two plies out. -/
def gTrap : GState :=
  .node 0 0 [((0, 0), .node 0 0 [((1, 1), .node 0 0 [])])]

def cfgFix2 : PlayerCfg := { search_depth := 2, iterative := false, method := "minimax", thr := 10 }

/-! Folded maximum and minimum of a list of values, matching the shape in
which the search loops accumulate best_utility. -/

/-- Left fold of max, starting from x. -/
def foldMax (x : Val) : List Val → Val
  | [] => x
  | v :: l => foldMax (max x v) l

/-- Left fold of min, starting from x. -/
def foldMin (x : Val) : List Val → Val
  | [] => x
  | v :: l => foldMin (min x v) l

lemma foldMax_mono {x y : Val} (h : x ≤ y) : ∀ l, foldMax x l ≤ foldMax y l
  | [] => h
  | v :: l => foldMax_mono (max_le_max h le_rfl) l

lemma le_foldMax (x : Val) : ∀ l, x ≤ foldMax x l
  | [] => le_rfl
  | v :: l => le_trans (le_max_left x v) (le_foldMax (max x v) l)

lemma mem_le_foldMax {v : Val} (x : Val) : ∀ l, v ∈ l → v ≤ foldMax x l
  | w :: l, h => by
    rcases List.mem_cons.mp h with h1 | h2
    · subst h1; exact le_trans (le_max_right x v) (le_foldMax (max x v) l)
    · exact mem_le_foldMax (max x w) l h2

lemma foldMax_le_max {f a x : Val} (h : f ≤ max a x) :
    ∀ l, foldMax f l ≤ max a (foldMax x l)
  | [] => h
  | v :: l => by
    have h2 : max f v ≤ max a (max x v) := by
      calc max f v ≤ max (max a x) v := max_le_max h le_rfl
      _ = max a (max x v) := max_assoc a x v
    exact foldMax_le_max h2 l

lemma min_foldMax_le {b x y : Val} (h : min b x ≤ y) :
    ∀ l, min b (foldMax x l) ≤ foldMax y l
  | [] => h
  | v :: l => by
    have h2 : min b (max x v) ≤ max y v := by
      rw [min_max_distrib_left]
      exact max_le_max h (min_le_right b v)
    exact min_foldMax_le h2 l

lemma foldMin_mono {x y : Val} (h : x ≤ y) : ∀ l, foldMin x l ≤ foldMin y l
  | [] => h
  | v :: l => foldMin_mono (min_le_min h le_rfl) l

lemma foldMin_le (x : Val) : ∀ l, foldMin x l ≤ x
  | [] => le_rfl
  | v :: l => le_trans (foldMin_le (min x v) l) (min_le_left x v)

lemma foldMin_le_mem {v : Val} (x : Val) : ∀ l, v ∈ l → foldMin x l ≤ v
  | w :: l, h => by
    rcases List.mem_cons.mp h with h1 | h2
    · subst h1; exact le_trans (foldMin_le (min x v) l) (min_le_right x v)
    · exact foldMin_le_mem (min x w) l h2

lemma min_le_foldMin {f b x : Val} (h : min b x ≤ f) :
    ∀ l, min b (foldMin x l) ≤ foldMin f l
  | [] => h
  | v :: l => by
    have h2 : min b (min x v) ≤ min f v := by
      calc min b (min x v) = min (min b x) v := (min_assoc b x v).symm
      _ ≤ min f v := min_le_min h le_rfl
    exact min_le_foldMin h2 l

lemma foldMin_le_max {a x y : Val} (h : y ≤ max a x) :
    ∀ l, foldMin y l ≤ max a (foldMin x l)
  | [] => h
  | v :: l => by
    have h2 : min y v ≤ max a (min x v) := by
      rw [max_min_distrib_left]
      exact min_le_min h (le_max_right a v)
    exact foldMin_le_max h2 l

/-! Characterisation of the minimax loop: its value is the folded
max (resp. min) of the successor values, and its move either stays the
accumulator move (when no candidate strictly improves on the initial
best_utility) or is the earliest candidate attaining the final value. -/

lemma mmLoop_fst_max (ev : GState → Val) :
    ∀ (l : List (Move × GState)) (acc : Val × Move),
      (mmLoop ev true l acc).1 = foldMax acc.1 (l.map (fun p => ev p.2))
  | [], _ => rfl
  | (mv, c) :: rest, acc => by
    simp only [mmLoop, List.map_cons, foldMax, if_true]
    by_cases h : acc.1 < ev c
    · rw [if_pos h, mmLoop_fst_max ev rest, max_eq_right (le_of_lt h)]
    · rw [if_neg h, mmLoop_fst_max ev rest, max_eq_left (le_of_not_lt h)]

lemma mmLoop_fst_min (ev : GState → Val) :
    ∀ (l : List (Move × GState)) (acc : Val × Move),
      (mmLoop ev false l acc).1 = foldMin acc.1 (l.map (fun p => ev p.2))
  | [], _ => rfl
  | (mv, c) :: rest, acc => by
    by_cases h : ev c < acc.1
    · have hstep : mmLoop ev false ((mv, c) :: rest) acc
          = mmLoop ev false rest (ev c, mv) := by
        simp [mmLoop, h]
      rw [hstep, mmLoop_fst_min ev rest, List.map_cons, foldMin,
        min_eq_right (le_of_lt h)]
    · have hstep : mmLoop ev false ((mv, c) :: rest) acc
          = mmLoop ev false rest acc := by
        simp [mmLoop, h]
      rw [hstep, mmLoop_fst_min ev rest, List.map_cons, foldMin,
        min_eq_left (le_of_not_lt h)]

lemma mmLoop_spec_max (ev : GState → Val) :
    ∀ (l : List (Move × GState)) (acc : Val × Move),
      (mmLoop ev true l acc = acc ∧ ∀ p ∈ l, ev p.2 ≤ acc.1)
      ∨ (∃ k, (l.map (fun q => (q.1, ev q.2))).get? k
             = some ((mmLoop ev true l acc).2, (mmLoop ev true l acc).1)
           ∧ acc.1 < (mmLoop ev true l acc).1
           ∧ ∀ q ∈ (l.map (fun q => (q.1, ev q.2))).take k,
               q.2 < (mmLoop ev true l acc).1)
  | [], acc => Or.inl ⟨rfl, by simp⟩
  | (mv, c) :: rest, acc => by
    by_cases h : acc.1 < ev c
    · have hstep : mmLoop ev true ((mv, c) :: rest) acc
          = mmLoop ev true rest (ev c, mv) := by
        simp [mmLoop, h]
      rcases mmLoop_spec_max ev rest (ev c, mv) with ⟨heq, hall⟩ | ⟨k, hk, hlt, htk⟩
      · refine Or.inr ⟨0, ?_, ?_, ?_⟩
        · simp [hstep, heq]
        · rw [hstep, heq]; exact h
        · intro q hq; simp at hq
      · refine Or.inr ⟨k + 1, ?_, ?_, ?_⟩
        · simpa [hstep] using hk
        · rw [hstep]; exact lt_trans h hlt
        · intro q hq
          rw [hstep]
          rcases List.mem_cons.mp (by simpa using hq) with h1 | h2
          · rw [h1]; exact hlt
          · exact htk q h2
    · have hstep : mmLoop ev true ((mv, c) :: rest) acc
          = mmLoop ev true rest acc := by
        simp [mmLoop, h]
      rcases mmLoop_spec_max ev rest acc with ⟨heq, hall⟩ | ⟨k, hk, hlt, htk⟩
      · refine Or.inl ⟨by rw [hstep, heq], ?_⟩
        intro p hp
        rcases List.mem_cons.mp hp with h1 | h2
        · rw [h1]; exact le_of_not_lt h
        · exact hall p h2
      · refine Or.inr ⟨k + 1, ?_, ?_, ?_⟩
        · simpa [hstep] using hk
        · rw [hstep]; exact hlt
        · intro q hq
          rw [hstep]
          rcases List.mem_cons.mp (by simpa using hq) with h1 | h2
          · rw [h1, hstep] at *
            exact lt_of_le_of_lt (le_of_not_lt h) hlt
          · exact htk q h2

lemma mmLoop_spec_min (ev : GState → Val) :
    ∀ (l : List (Move × GState)) (acc : Val × Move),
      (mmLoop ev false l acc = acc ∧ ∀ p ∈ l, acc.1 ≤ ev p.2)
      ∨ (∃ k, (l.map (fun q => (q.1, ev q.2))).get? k
             = some ((mmLoop ev false l acc).2, (mmLoop ev false l acc).1)
           ∧ (mmLoop ev false l acc).1 < acc.1
           ∧ ∀ q ∈ (l.map (fun q => (q.1, ev q.2))).take k,
               (mmLoop ev false l acc).1 < q.2)
  | [], acc => Or.inl ⟨rfl, by simp⟩
  | (mv, c) :: rest, acc => by
    by_cases h : ev c < acc.1
    · have hstep : mmLoop ev false ((mv, c) :: rest) acc
          = mmLoop ev false rest (ev c, mv) := by
        simp [mmLoop, h]
      rcases mmLoop_spec_min ev rest (ev c, mv) with ⟨heq, hall⟩ | ⟨k, hk, hlt, htk⟩
      · refine Or.inr ⟨0, ?_, ?_, ?_⟩
        · simp [hstep, heq]
        · rw [hstep, heq]; exact h
        · intro q hq; simp at hq
      · refine Or.inr ⟨k + 1, ?_, ?_, ?_⟩
        · simpa [hstep] using hk
        · rw [hstep]; exact lt_trans hlt h
        · intro q hq
          rw [hstep]
          rcases List.mem_cons.mp (by simpa using hq) with h1 | h2
          · rw [h1]; exact hlt
          · exact htk q h2
    · have hstep : mmLoop ev false ((mv, c) :: rest) acc
          = mmLoop ev false rest acc := by
        simp [mmLoop, h]
      rcases mmLoop_spec_min ev rest acc with ⟨heq, hall⟩ | ⟨k, hk, hlt, htk⟩
      · refine Or.inl ⟨by rw [hstep, heq], ?_⟩
        intro p hp
        rcases List.mem_cons.mp hp with h1 | h2
        · rw [h1]; exact le_of_not_lt h
        · exact hall p h2
      · refine Or.inr ⟨k + 1, ?_, ?_, ?_⟩
        · simpa [hstep] using hk
        · rw [hstep]; exact hlt
        · intro q hq
          rw [hstep]
          rcases List.mem_cons.mp (by simpa using hq) with h1 | h2
          · rw [h1, hstep] at *
            exact lt_of_lt_of_le hlt (le_of_not_lt h)
          · exact htk q h2

/-- Characterisation of the alphabeta loop, maximizing layer: either no
candidate ever strictly improved on the accumulator, which is returned
unchanged, or the returned value strictly improves on the initial one and
the returned move is one of the candidate moves. -/
lemma abLoop_stay_max (ev : Val → Val → GState → Val) :
    ∀ (l : List (Move × GState)) (a b : Val) (acc : Val × Move),
      abLoop ev true l a b acc = acc
      ∨ (acc.1 < (abLoop ev true l a b acc).1
         ∧ (abLoop ev true l a b acc).2 ∈ l.map (fun p => p.1))
  | [], _, _, _ => Or.inl rfl
  | (mv, c) :: rest, a, b, acc => by
    by_cases h1 : acc.1 < ev a b c
    · by_cases h2 : b ≤ ev a b c
      · have hstep : abLoop ev true ((mv, c) :: rest) a b acc = (ev a b c, mv) := by
          simp [abLoop, h1, h2]
        rw [hstep]
        exact Or.inr ⟨h1, by simp⟩
      · have hstep : abLoop ev true ((mv, c) :: rest) a b acc
            = abLoop ev true rest (max a (ev a b c)) b (ev a b c, mv) := by
          simp [abLoop, h1, h2]
        rw [hstep]
        rcases abLoop_stay_max ev rest (max a (ev a b c)) b (ev a b c, mv) with
          heq | ⟨hlt, hmem⟩
        · rw [heq]; exact Or.inr ⟨h1, by simp⟩
        · refine Or.inr ⟨lt_trans h1 hlt, ?_⟩
          simp only [List.map_cons, List.mem_cons]
          exact Or.inr (by simpa using hmem)
    · have hstep : abLoop ev true ((mv, c) :: rest) a b acc
          = abLoop ev true rest a b acc := by
        simp [abLoop, h1]
      rw [hstep]
      rcases abLoop_stay_max ev rest a b acc with heq | ⟨hlt, hmem⟩
      · exact Or.inl heq
      · refine Or.inr ⟨hlt, ?_⟩
        simp only [List.map_cons, List.mem_cons]
        exact Or.inr (by simpa using hmem)

/-- Characterisation of the alphabeta loop, minimizing layer. -/
lemma abLoop_stay_min (ev : Val → Val → GState → Val) :
    ∀ (l : List (Move × GState)) (a b : Val) (acc : Val × Move),
      abLoop ev false l a b acc = acc
      ∨ ((abLoop ev false l a b acc).1 < acc.1
         ∧ (abLoop ev false l a b acc).2 ∈ l.map (fun p => p.1))
  | [], _, _, _ => Or.inl rfl
  | (mv, c) :: rest, a, b, acc => by
    by_cases h1 : ev a b c < acc.1
    · by_cases h2 : ev a b c ≤ a
      · have hstep : abLoop ev false ((mv, c) :: rest) a b acc = (ev a b c, mv) := by
          simp [abLoop, h1, h2]
        rw [hstep]
        exact Or.inr ⟨h1, by simp⟩
      · have hstep : abLoop ev false ((mv, c) :: rest) a b acc
            = abLoop ev false rest a (min b (ev a b c)) (ev a b c, mv) := by
          simp [abLoop, h1, h2]
        rw [hstep]
        rcases abLoop_stay_min ev rest a (min b (ev a b c)) (ev a b c, mv) with
          heq | ⟨hlt, hmem⟩
        · rw [heq]; exact Or.inr ⟨h1, by simp⟩
        · refine Or.inr ⟨lt_trans hlt h1, ?_⟩
          simp only [List.map_cons, List.mem_cons]
          exact Or.inr (by simpa using hmem)
    · have hstep : abLoop ev false ((mv, c) :: rest) a b acc
          = abLoop ev false rest a b acc := by
        simp [abLoop, h1]
      rw [hstep]
      rcases abLoop_stay_min ev rest a b acc with heq | ⟨hlt, hmem⟩
      · exact Or.inl heq
      · refine Or.inr ⟨hlt, ?_⟩
        simp only [List.map_cons, List.mem_cons]
        exact Or.inr (by simpa using hmem)

/-- Fail-soft sandwich for the maximizing alphabeta loop: assuming every
successor evaluation r is sandwiched as min b v ≤ r ≤ max a v around the
true successor value v, the loop result is sandwiched the same way around
the folded maximum that plain minimax would compute. -/
lemma abLoop_bounds_max (ev : Val → Val → GState → Val) (vF : GState → Val)
    (hev : ∀ a b c, a < b → ev a b c ≤ max a (vF c) ∧ min b (vF c) ≤ ev a b c) :
    ∀ (l : List (Move × GState)) (a b : Val) (acc : Val × Move),
      a < b → acc.1 ≤ a →
      (abLoop ev true l a b acc).1
          ≤ max a (foldMax acc.1 (l.map (fun p => vF p.2)))
      ∧ min b (foldMax acc.1 (l.map (fun p => vF p.2)))
          ≤ (abLoop ev true l a b acc).1
  | [], a, b, acc, hab, hacc => by
    constructor
    · exact le_trans hacc (le_max_left a acc.1)
    · exact min_le_right b acc.1
  | (mv, c) :: rest, a, b, acc, hab, hacc => by
    have hev1 := hev a b c hab
    by_cases h1 : acc.1 < ev a b c
    · by_cases h2 : b ≤ ev a b c
      · have hstep : abLoop ev true ((mv, c) :: rest) a b acc = (ev a b c, mv) := by
          simp [abLoop, h1, h2]
        rw [hstep]
        simp only [List.map_cons, foldMax]
        constructor
        · refine le_trans hev1.1 (max_le_max le_rfl ?_)
          exact le_trans (le_max_right acc.1 (vF c)) (le_foldMax _ _)
        · exact le_trans (min_le_left b _) h2
      · have hfb : ev a b c < b := lt_of_not_le h2
        have hstep : abLoop ev true ((mv, c) :: rest) a b acc
            = abLoop ev true rest (max a (ev a b c)) b (ev a b c, mv) := by
          simp [abLoop, h1, h2]
        have ih := abLoop_bounds_max ev vF hev rest (max a (ev a b c)) b
          (ev a b c, mv) (max_lt hab hfb) (le_max_right a (ev a b c))
        rw [hstep]
        simp only [List.map_cons, foldMax]
        constructor
        · refine le_trans ih.1 ?_
          refine max_le (max_le (le_max_left a _) ?_) ?_
          · refine le_trans hev1.1 (max_le_max le_rfl ?_)
            exact le_trans (le_max_right acc.1 (vF c)) (le_foldMax _ _)
          · refine foldMax_le_max ?_ _
            exact le_trans hev1.1 (max_le_max le_rfl (le_max_right acc.1 (vF c)))
        · refine le_trans ?_ ih.2
          refine le_min (min_le_left b _) ?_
          refine min_foldMax_le ?_ _
          rw [min_max_distrib_left]
          exact max_le (le_trans (min_le_right b acc.1) (le_of_lt h1)) hev1.2
    · have hstep : abLoop ev true ((mv, c) :: rest) a b acc
          = abLoop ev true rest a b acc := by
        simp [abLoop, h1]
      have ih := abLoop_bounds_max ev vF hev rest a b acc hab hacc
      rw [hstep]
      simp only [List.map_cons, foldMax]
      constructor
      · exact le_trans ih.1
          (max_le_max le_rfl (foldMax_mono (le_max_left acc.1 (vF c)) _))
      · refine le_trans ?_ ih.2
        refine le_min (min_le_left b _) ?_
        refine min_foldMax_le ?_ _
        rw [min_max_distrib_left]
        exact max_le (min_le_right b acc.1) (le_trans hev1.2 (le_of_not_lt h1))

/-- Fail-soft sandwich for the minimizing alphabeta loop. -/
lemma abLoop_bounds_min (ev : Val → Val → GState → Val) (vF : GState → Val)
    (hev : ∀ a b c, a < b → ev a b c ≤ max a (vF c) ∧ min b (vF c) ≤ ev a b c) :
    ∀ (l : List (Move × GState)) (a b : Val) (acc : Val × Move),
      a < b → b ≤ acc.1 →
      (abLoop ev false l a b acc).1
          ≤ max a (foldMin acc.1 (l.map (fun p => vF p.2)))
      ∧ min b (foldMin acc.1 (l.map (fun p => vF p.2)))
          ≤ (abLoop ev false l a b acc).1
  | [], a, b, acc, hab, hacc => by
    constructor
    · exact le_max_right a acc.1
    · exact min_le_right b acc.1
  | (mv, c) :: rest, a, b, acc, hab, hacc => by
    have hev1 := hev a b c hab
    by_cases h1 : ev a b c < acc.1
    · by_cases h2 : ev a b c ≤ a
      · have hstep : abLoop ev false ((mv, c) :: rest) a b acc = (ev a b c, mv) := by
          simp [abLoop, h1, h2]
        rw [hstep]
        simp only [List.map_cons, foldMin]
        constructor
        · exact le_trans h2 (le_max_left a _)
        · refine le_trans (min_le_min le_rfl ?_) hev1.2
          exact le_trans (foldMin_le _ _) (min_le_right acc.1 (vF c))
      · have haf : a < ev a b c := lt_of_not_le h2
        have hstep : abLoop ev false ((mv, c) :: rest) a b acc
            = abLoop ev false rest a (min b (ev a b c)) (ev a b c, mv) := by
          simp [abLoop, h1, h2]
        have ih := abLoop_bounds_min ev vF hev rest a (min b (ev a b c))
          (ev a b c, mv) (lt_min hab haf) (min_le_right b (ev a b c))
        rw [hstep]
        simp only [List.map_cons, foldMin]
        constructor
        · refine le_trans ih.1 ?_
          refine max_le (le_max_left a _) ?_
          refine foldMin_le_max ?_ _
          rw [max_min_distrib_left]
          exact le_min (le_trans (le_of_lt h1) (le_max_right a acc.1)) hev1.1
        · refine le_trans ?_ ih.2
          refine le_min (le_min (min_le_left b _) ?_) ?_
          · refine le_trans (min_le_min le_rfl ?_) hev1.2
            exact le_trans (foldMin_le _ _) (min_le_right acc.1 (vF c))
          · refine min_le_foldMin ?_ _
            exact le_trans (min_le_min le_rfl (min_le_right acc.1 (vF c))) hev1.2
    · have hstep : abLoop ev false ((mv, c) :: rest) a b acc
          = abLoop ev false rest a b acc := by
        simp [abLoop, h1]
      have ih := abLoop_bounds_min ev vF hev rest a b acc hab hacc
      rw [hstep]
      simp only [List.map_cons, foldMin]
      constructor
      · refine le_trans ih.1 ?_
        refine max_le (le_max_left a _) ?_
        refine foldMin_le_max ?_ _
        rw [max_min_distrib_left]
        exact le_min (le_max_right a acc.1)
          (le_trans (le_of_not_lt h1) hev1.1)
      · exact le_trans
          (min_le_min le_rfl (foldMin_mono (min_le_left acc.1 (vF c)) _)) ih.2


lemma Val.negInf_def : Val.negInf = (⊥ : Val) := rfl

lemma Val.posInf_def : Val.posInf = (⊤ : Val) := rfl

lemma bestInit_true : bestInit true = (⊥ : Val) := rfl

lemma bestInit_false : bestInit false = (⊤ : Val) := rfl

/-- Unfolding: a terminal node returns the utility, at any depth. -/
lemma minimax_nil (d : Nat) (sa si : Val) (mx : Bool) :
    minimax d (GState.node sa si []) mx
    = ((GState.node sa si []).utility mx, noMove) := by
  cases d <;> rfl

lemma alphabeta_nil (d : Nat) (sa si : Val) (a b : Val) (mx : Bool) :
    alphabeta d (GState.node sa si []) a b mx
    = ((GState.node sa si []).utility mx, noMove) := by
  cases d <;> rfl

/-- Unfolding: depth 0 with legal moves returns the score and the first
legal move. -/
lemma minimax_zero_cons (sa si : Val) (p : Move × GState)
    (l : List (Move × GState)) (mx : Bool) :
    minimax 0 (GState.node sa si (p :: l)) mx
    = ((GState.node sa si (p :: l)).score mx, p.1) := rfl

lemma alphabeta_zero_cons (sa si : Val) (p : Move × GState)
    (l : List (Move × GState)) (a b : Val) (mx : Bool) :
    alphabeta 0 (GState.node sa si (p :: l)) a b mx
    = ((GState.node sa si (p :: l)).score mx, p.1) := rfl

/-- Unfolding: an interior node runs the loop over the legal moves. -/
lemma minimax_succ_cons (d : Nat) (sa si : Val) (p : Move × GState)
    (l : List (Move × GState)) (mx : Bool) :
    minimax (d + 1) (GState.node sa si (p :: l)) mx
    = mmLoop (fun c => (minimax d c (!mx)).1) mx (p :: l)
        (bestInit mx, noMove) := rfl

lemma alphabeta_succ_cons (d : Nat) (sa si : Val) (p : Move × GState)
    (l : List (Move × GState)) (a b : Val) (mx : Bool) :
    alphabeta (d + 1) (GState.node sa si (p :: l)) a b mx
    = abLoop (fun a1 b1 c => (alphabeta d c a1 b1 (!mx)).1) mx (p :: l) a b
        (bestInit mx, noMove) := rfl

/-- Fail-soft sandwich for the full search: for any window alpha < beta,
the alphabeta value is between min beta v and max alpha v, where v is the
plain minimax value at the same depth. -/
lemma alphabeta_bounds : ∀ (d : Nat) (g : GState) (mx : Bool) (a b : Val),
    a < b →
    (alphabeta d g a b mx).1 ≤ max a (minimax d g mx).1
    ∧ min b (minimax d g mx).1 ≤ (alphabeta d g a b mx).1 := by
  intro d
  induction d with
  | zero =>
    intro g mx a b hab
    obtain ⟨sa, si, cs⟩ := g
    cases cs with
    | nil =>
      rw [minimax_nil, alphabeta_nil]
      exact ⟨le_max_right a _, min_le_right b _⟩
    | cons p l =>
      rw [minimax_zero_cons, alphabeta_zero_cons]
      exact ⟨le_max_right a _, min_le_right b _⟩
  | succ d ih =>
    intro g mx a b hab
    obtain ⟨sa, si, cs⟩ := g
    cases cs with
    | nil =>
      rw [minimax_nil, alphabeta_nil]
      exact ⟨le_max_right a _, min_le_right b _⟩
    | cons p l =>
      rw [minimax_succ_cons, alphabeta_succ_cons]
      cases mx with
      | true =>
        have habl := abLoop_bounds_max
          (fun a1 b1 c => (alphabeta d c a1 b1 (!true)).1)
          (fun c => (minimax d c (!true)).1)
          (fun a1 b1 c h => ih c (!true) a1 b1 h)
          (p :: l) a b (bestInit true, noMove) hab
          (by rw [bestInit_true]; exact bot_le)
        rw [mmLoop_fst_max]
        exact habl
      | false =>
        have habl := abLoop_bounds_min
          (fun a1 b1 c => (alphabeta d c a1 b1 (!false)).1)
          (fun c => (minimax d c (!false)).1)
          (fun a1 b1 c h => ih c (!false) a1 b1 h)
          (p :: l) a b (bestInit false, noMove) hab
          (by rw [bestInit_false]; exact le_top)
        rw [mmLoop_fst_min]
        exact habl

/-- With the default full window the alphabeta value equals the minimax
value. -/
lemma alphabeta_value_eq (d : Nat) (g : GState) (mx : Bool) :
    (alphabeta d g Val.negInf Val.posInf mx).1 = (minimax d g mx).1 := by
  have hlt : Val.negInf < Val.posInf := by decide
  have h := alphabeta_bounds d g mx Val.negInf Val.posInf hlt
  refine le_antisymm ?_ ?_
  · have h1 := h.1
    rw [Val.negInf_def, max_eq_right bot_le] at h1
    exact h1
  · have h2 := h.2
    rw [Val.posInf_def, min_eq_right le_top] at h2
    exact h2

/-- Unfolding lemmas for the timed searches, one per node shape. -/
lemma minimaxT_nil (o : Oracle) (thr : ℚ) (d : Nat) (sa si : Val)
    (mx : Bool) (t : Nat) :
    minimaxT o thr d (GState.node sa si []) mx t
    = if o t < thr then .error () else
        .ok (((GState.node sa si []).utility mx, noMove), t + 1) := by
  cases d <;> rfl

lemma minimaxT_zero_cons (o : Oracle) (thr : ℚ) (sa si : Val)
    (p : Move × GState) (l : List (Move × GState)) (mx : Bool) (t : Nat) :
    minimaxT o thr 0 (GState.node sa si (p :: l)) mx t
    = if o t < thr then .error () else
        .ok (((GState.node sa si (p :: l)).score mx, p.1), t + 1) := rfl

lemma minimaxT_succ_cons (o : Oracle) (thr : ℚ) (d : Nat) (sa si : Val)
    (p : Move × GState) (l : List (Move × GState)) (mx : Bool) (t : Nat) :
    minimaxT o thr (d + 1) (GState.node sa si (p :: l)) mx t
    = if o t < thr then .error () else
        mmLoopT (fun c t1 => Except.map (fun r => (r.1.1, r.2))
            (minimaxT o thr d c (!mx) t1))
          mx (p :: l) (bestInit mx, noMove) (t + 1) := rfl

lemma alphabetaT_nil (o : Oracle) (thr : ℚ) (d : Nat) (sa si : Val)
    (a b : Val) (mx : Bool) (t : Nat) :
    alphabetaT o thr d (GState.node sa si []) a b mx t
    = if o t < thr then .error () else
        .ok (((GState.node sa si []).utility mx, noMove), t + 1) := by
  cases d <;> rfl

lemma alphabetaT_zero_cons (o : Oracle) (thr : ℚ) (sa si : Val)
    (p : Move × GState) (l : List (Move × GState)) (a b : Val) (mx : Bool)
    (t : Nat) :
    alphabetaT o thr 0 (GState.node sa si (p :: l)) a b mx t
    = if o t < thr then .error () else
        .ok (((GState.node sa si (p :: l)).score mx, p.1), t + 1) := rfl

lemma alphabetaT_succ_cons (o : Oracle) (thr : ℚ) (d : Nat) (sa si : Val)
    (p : Move × GState) (l : List (Move × GState)) (a b : Val) (mx : Bool)
    (t : Nat) :
    alphabetaT o thr (d + 1) (GState.node sa si (p :: l)) a b mx t
    = if o t < thr then .error () else
        abLoopT (fun a1 b1 c t1 => Except.map (fun r => (r.1.1, r.2))
            (alphabetaT o thr d c a1 b1 (!mx) t1))
          mx (p :: l) a b (bestInit mx, noMove) (t + 1) := rfl

/-- A node entered with strictly less remaining time than the threshold
raises Timeout at once. -/
lemma minimaxT_timeout (o : Oracle) (thr : ℚ) (d : Nat) (g : GState)
    (mx : Bool) (t : Nat) (h : o t < thr) :
    minimaxT o thr d g mx t = .error () := by
  obtain ⟨sa, si, cs⟩ := g
  cases cs with
  | nil => rw [minimaxT_nil, if_pos h]
  | cons p l =>
    cases d with
    | zero => rw [minimaxT_zero_cons, if_pos h]
    | succ d => rw [minimaxT_succ_cons, if_pos h]

lemma alphabetaT_timeout (o : Oracle) (thr : ℚ) (d : Nat) (g : GState)
    (a b : Val) (mx : Bool) (t : Nat) (h : o t < thr) :
    alphabetaT o thr d g a b mx t = .error () := by
  obtain ⟨sa, si, cs⟩ := g
  cases cs with
  | nil => rw [alphabetaT_nil, if_pos h]
  | cons p l =>
    cases d with
    | zero => rw [alphabetaT_zero_cons, if_pos h]
    | succ d => rw [alphabetaT_succ_cons, if_pos h]

/-- Bridge for the minimax loop: when every successor evaluation succeeds
with the untimed value, the timed loop succeeds with the untimed loop
result. -/
lemma mmLoopT_ok (evT : GState → Nat → Except Unit (Val × Nat))
    (evP : GState → Val)
    (hev : ∀ c t, ∃ t1, evT c t = .ok (evP c, t1)) (mx : Bool) :
    ∀ (l : List (Move × GState)) (acc : Val × Move) (t : Nat),
      ∃ t1, mmLoopT evT mx l acc t = .ok (mmLoop evP mx l acc, t1)
  | [], acc, t => ⟨t, rfl⟩
  | (mv, c) :: rest, acc, t => by
    obtain ⟨t1, h1⟩ := hev c t
    obtain ⟨t2, h2⟩ := mmLoopT_ok evT evP hev mx rest
      (if mx then (if acc.1 < evP c then (evP c, mv) else acc)
       else (if evP c < acc.1 then (evP c, mv) else acc)) t1
    refine ⟨t2, ?_⟩
    simp only [mmLoopT, h1]
    exact h2

/-- Bridge for the alphabeta loop. -/
lemma abLoopT_ok (evT : Val → Val → GState → Nat → Except Unit (Val × Nat))
    (evP : Val → Val → GState → Val)
    (hev : ∀ a b c t, ∃ t1, evT a b c t = .ok (evP a b c, t1)) (mx : Bool) :
    ∀ (l : List (Move × GState)) (a b : Val) (acc : Val × Move) (t : Nat),
      ∃ t1, abLoopT evT mx l a b acc t = .ok (abLoop evP mx l a b acc, t1)
  | [], a, b, acc, t => ⟨t, rfl⟩
  | (mv, c) :: rest, a, b, acc, t => by
    obtain ⟨t1, h1⟩ := hev a b c t
    cases mx with
    | true =>
      by_cases hc1 : acc.1 < evP a b c
      · by_cases hc2 : b ≤ evP a b c
        · exact ⟨t1, by simp [abLoopT, abLoop, h1, hc1, hc2]⟩
        · obtain ⟨t2, h2⟩ := abLoopT_ok evT evP hev true rest
            (max a (evP a b c)) b (evP a b c, mv) t1
          exact ⟨t2, by simp [abLoopT, abLoop, h1, hc1, hc2, h2]⟩
      · obtain ⟨t2, h2⟩ := abLoopT_ok evT evP hev true rest a b acc t1
        exact ⟨t2, by simp [abLoopT, abLoop, h1, hc1, h2]⟩
    | false =>
      by_cases hc1 : evP a b c < acc.1
      · by_cases hc2 : evP a b c ≤ a
        · exact ⟨t1, by simp [abLoopT, abLoop, h1, hc1, hc2]⟩
        · obtain ⟨t2, h2⟩ := abLoopT_ok evT evP hev false rest
            a (min b (evP a b c)) (evP a b c, mv) t1
          exact ⟨t2, by simp [abLoopT, abLoop, h1, hc1, hc2, h2]⟩
      · obtain ⟨t2, h2⟩ := abLoopT_ok evT evP hev false rest a b acc t1
        exact ⟨t2, by simp [abLoopT, abLoop, h1, hc1, h2]⟩

/-- With an oracle that never reports less time than the threshold, the
timed minimax never raises Timeout and computes the untimed result. -/
lemma minimaxT_ok (o : Oracle) (thr : ℚ) (ho : ∀ n, thr ≤ o n) :
    ∀ (d : Nat) (g : GState) (mx : Bool) (t : Nat),
      ∃ t1, minimaxT o thr d g mx t = .ok (minimax d g mx, t1) := by
  intro d
  induction d with
  | zero =>
    intro g mx t
    obtain ⟨sa, si, cs⟩ := g
    have hnl : ¬ o t < thr := not_lt.mpr (ho t)
    cases cs with
    | nil => exact ⟨t + 1, by rw [minimaxT_nil, if_neg hnl, minimax_nil]⟩
    | cons p l =>
      exact ⟨t + 1, by rw [minimaxT_zero_cons, if_neg hnl, minimax_zero_cons]⟩
  | succ d ih =>
    intro g mx t
    obtain ⟨sa, si, cs⟩ := g
    have hnl : ¬ o t < thr := not_lt.mpr (ho t)
    cases cs with
    | nil => exact ⟨t + 1, by rw [minimaxT_nil, if_neg hnl, minimax_nil]⟩
    | cons p l =>
      have hev : ∀ c t0, ∃ t1,
          Except.map (fun r => (r.1.1, r.2)) (minimaxT o thr d c (!mx) t0)
          = .ok ((minimax d c (!mx)).1, t1) := by
        intro c t0
        obtain ⟨t1, h1⟩ := ih c (!mx) t0
        exact ⟨t1, by rw [h1]; rfl⟩
      obtain ⟨t1, h1⟩ := mmLoopT_ok _ _ hev mx (p :: l) (bestInit mx, noMove) (t + 1)
      refine ⟨t1, ?_⟩
      rw [minimaxT_succ_cons, if_neg hnl]
      rw [minimax_succ_cons]
      exact h1

/-- With an oracle that never reports less time than the threshold, the
timed alphabeta never raises Timeout and computes the untimed result. -/
lemma alphabetaT_ok (o : Oracle) (thr : ℚ) (ho : ∀ n, thr ≤ o n) :
    ∀ (d : Nat) (g : GState) (a b : Val) (mx : Bool) (t : Nat),
      ∃ t1, alphabetaT o thr d g a b mx t = .ok (alphabeta d g a b mx, t1) := by
  intro d
  induction d with
  | zero =>
    intro g a b mx t
    obtain ⟨sa, si, cs⟩ := g
    have hnl : ¬ o t < thr := not_lt.mpr (ho t)
    cases cs with
    | nil => exact ⟨t + 1, by rw [alphabetaT_nil, if_neg hnl, alphabeta_nil]⟩
    | cons p l =>
      exact ⟨t + 1, by rw [alphabetaT_zero_cons, if_neg hnl, alphabeta_zero_cons]⟩
  | succ d ih =>
    intro g a b mx t
    obtain ⟨sa, si, cs⟩ := g
    have hnl : ¬ o t < thr := not_lt.mpr (ho t)
    cases cs with
    | nil => exact ⟨t + 1, by rw [alphabetaT_nil, if_neg hnl, alphabeta_nil]⟩
    | cons p l =>
      have hev : ∀ a1 b1 c t0, ∃ t1,
          Except.map (fun r => (r.1.1, r.2)) (alphabetaT o thr d c a1 b1 (!mx) t0)
          = .ok ((alphabeta d c a1 b1 (!mx)).1, t1) := by
        intro a1 b1 c t0
        obtain ⟨t1, h1⟩ := ih c a1 b1 (!mx) t0
        exact ⟨t1, by rw [h1]; rfl⟩
      obtain ⟨t1, h1⟩ := abLoopT_ok _ _ hev mx (p :: l) a b (bestInit mx, noMove) (t + 1)
      refine ⟨t1, ?_⟩
      rw [alphabetaT_succ_cons, if_neg hnl]
      rw [alphabeta_succ_cons]
      exact h1

/-- With an oracle always at or above the threshold and always above
0.001 ms, the iterative-deepening loop with method minimax never exits:
every search completes, the post-depth time check never fires, and the
loop runs again. -/
lemma iterLoop_fuelOut_mm (cfg : PlayerCfg) (g : GState) (o : Oracle)
    (hm : cfg.method = "minimax") (ho : ∀ n, cfg.thr ≤ o n)
    (hq : ∀ n, msEps < o n) :
    ∀ (fuel depth t : Nat) (best : Option Move),
      iterLoop cfg g o fuel depth t best = .fuelOut := by
  intro fuel
  induction fuel with
  | zero => intro depth t best; rfl
  | succ f ih =>
    intro depth t best
    obtain ⟨t1, h1⟩ := minimaxT_ok o cfg.thr ho (depth + 1) g true t
    simp [iterLoop, hm, h1, not_le.mpr (hq t1), ih]

/-- As iterLoop_fuelOut_mm, for method alphabeta. -/
lemma iterLoop_fuelOut_ab (cfg : PlayerCfg) (g : GState) (o : Oracle)
    (hm : cfg.method = "alphabeta") (ho : ∀ n, cfg.thr ≤ o n)
    (hq : ∀ n, msEps < o n) :
    ∀ (fuel depth t : Nat) (best : Option Move),
      iterLoop cfg g o fuel depth t best = .fuelOut := by
  intro fuel
  induction fuel with
  | zero => intro depth t best; rfl
  | succ f ih =>
    intro depth t best
    obtain ⟨t1, h1⟩ :=
      alphabetaT_ok o cfg.thr ho (depth + 1) g Val.negInf Val.posInf true t
    simp [iterLoop, hm, h1, not_le.mpr (hq t1), ih]

/-- C1: for every game state, depth, heuristic (baked into the state) and
a deadline oracle that never reports strictly less remaining time than
the threshold (so the timeout check never triggers), alphabeta called
with the default bounds alpha = -inf and beta = +inf returns the same
utility value as minimax at the same depth: pruning never changes the
computed value. -/
theorem C1_alphabeta_value_equals_minimax (o : Oracle) (thr : ℚ)
    (d : Nat) (g : GState) (mx : Bool) (t1 t2 : Nat)
    (ho : ∀ n, thr ≤ o n) :
    Except.map (fun r => r.1.1)
        (alphabetaT o thr d g Val.negInf Val.posInf mx t1)
    = Except.map (fun r => r.1.1) (minimaxT o thr d g mx t2) := by
  obtain ⟨ta, ha⟩ := alphabetaT_ok o thr ho d g Val.negInf Val.posInf mx t1
  obtain ⟨tm, hm⟩ := minimaxT_ok o thr ho d g mx t2
  rw [ha, hm]
  show Except.ok ((alphabeta d g Val.negInf Val.posInf mx).1)
      = Except.ok ((minimax d g mx).1)
  rw [alphabeta_value_eq]

/-- C1 witness at a concrete state, depth and oracle. -/
theorem C1_witness :
    Except.map (fun r => r.1.1)
        (alphabetaT (fun _ => (100 : ℚ)) 10 2 gTrap Val.negInf Val.posInf true 0)
    = Except.map (fun r => r.1.1) (minimaxT (fun _ => (100 : ℚ)) 10 2 gTrap true 0) :=
  C1_alphabeta_value_equals_minimax (fun _ => (100 : ℚ)) 10 2 gTrap true 0 0
    (fun _ => by norm_num)

/-- C5: for every state whose legal-move sequence for the active player
is empty, both minimax and alphabeta, at any depth and any bounds, return
the pair (utility(current_player), (-1, -1)), where current_player is the
active player on a maximizing layer and the inactive player on a
minimizing layer, and that utility is minus or plus infinity exactly. -/
theorem C5_terminal_returns_utility_and_sentinel (d : Nat) (g : GState)
    (a b : Val) (mx : Bool) (hc : g.children = []) :
    minimax d g mx = (g.utility mx, noMove)
    ∧ alphabeta d g a b mx = (g.utility mx, noMove)
    ∧ (g.utility mx = Val.negInf ∨ g.utility mx = Val.posInf) := by
  obtain ⟨sa, si, cs⟩ := g
  simp only [GState.children] at hc
  subst hc
  refine ⟨minimax_nil d sa si mx, alphabeta_nil d sa si a b mx, ?_⟩
  cases mx with
  | false => exact Or.inr rfl
  | true => exact Or.inl rfl

/-- C5 witness at a concrete terminal state. -/
theorem C5_witness :
    minimax 3 (GState.node 0 0 []) true
      = ((GState.node 0 0 []).utility true, noMove)
    ∧ alphabeta 3 (GState.node 0 0 []) Val.negInf Val.posInf true
      = ((GState.node 0 0 []).utility true, noMove)
    ∧ ((GState.node 0 0 []).utility true = Val.negInf
        ∨ (GState.node 0 0 []).utility true = Val.posInf) :=
  C5_terminal_returns_utility_and_sentinel 3 (GState.node 0 0 [])
    Val.negInf Val.posInf true rfl

/-- C6: for every state with a nonempty legal-move sequence, at depth 0
both minimax and alphabeta return the heuristic score of the state for
current_player together with the first legal move of the sequence. -/
theorem C6_depth_zero_score_and_first_move (g : GState) (p : Move × GState)
    (l : List (Move × GState)) (a b : Val) (mx : Bool)
    (hc : g.children = p :: l) :
    minimax 0 g mx = (g.score mx, p.1)
    ∧ alphabeta 0 g a b mx = (g.score mx, p.1) := by
  obtain ⟨sa, si, cs⟩ := g
  simp only [GState.children] at hc
  subst hc
  exact ⟨minimax_zero_cons sa si p l mx, alphabeta_zero_cons sa si p l a b mx⟩

/-- C6 witness at a concrete state. -/
theorem C6_witness :
    minimax 0 gStep true = (gStep.score true, (0, 0))
    ∧ alphabeta 0 gStep Val.negInf Val.posInf true = (gStep.score true, (0, 0)) :=
  C6_depth_zero_score_and_first_move gStep
    ((0, 0), GState.node (Val.fin 5) (Val.fin 5) [((9, 9), GState.node 0 0 [])])
    [] Val.negInf Val.posInf true rfl

/-- C7 counterexample: a node entered with remaining time exactly equal
to the threshold does not abort, because the code tests with a strict
comparison; the claim as stated (abort when at or below the threshold)
is therefore false at this input. -/
theorem C7_counterexample :
    minimaxT (fun _ => (10 : ℚ)) 10 0 (GState.node 0 0 []) true 0
      ≠ Except.error () := by
  intro h
  rw [show minimaxT (fun _ => (10 : ℚ)) 10 0 (GState.node 0 0 []) true 0
      = Except.ok (((GState.node 0 0 []).utility true, noMove), 1) from rfl] at h
  exact Except.noConfusion h

/-- C7 (amended): every entry into minimax or alphabeta (the latter also
being the competition alphabeta) first queries the deadline oracle, and
when the reported remaining time is strictly below the threshold the node
raises Timeout immediately, whatever the state, depth and bounds. -/
theorem C7_amended_timeout_on_entry (o : Oracle) (thr : ℚ) (d : Nat)
    (g : GState) (a b : Val) (mx : Bool) (t : Nat) (h : o t < thr) :
    minimaxT o thr d g mx t = .error ()
    ∧ alphabetaT o thr d g a b mx t = .error () :=
  ⟨minimaxT_timeout o thr d g mx t h, alphabetaT_timeout o thr d g a b mx t h⟩

/-- C7 witness at a concrete oracle below the threshold. -/
theorem C7_witness :
    minimaxT (fun _ => (0 : ℚ)) 10 3 gTrap true 0 = .error ()
    ∧ alphabetaT (fun _ => (0 : ℚ)) 10 3 gTrap Val.negInf Val.posInf true 0
      = .error () :=
  C7_amended_timeout_on_entry (fun _ => (0 : ℚ)) 10 3 gTrap Val.negInf
    Val.posInf true 0 (by norm_num)

/-- C4 counterexample: at the root of gTrap at depth 2 the only legal
move evaluates to minus infinity, so it never strictly improves on the
initial best utility: the returned move is the sentinel, which is not an
element of the legal-move list of the node, contradicting the claim that
the first candidate always replaces the initial best and that the
returned move is always an element of the legal-move list. -/
theorem C4_counterexample : (minimax 2 gTrap true).2 ∉ movesOf gTrap := by
  decide

/-- C4 (amended): in every recursive node with nonempty legal moves and
depth at least 1, the initial best utility is -inf on a maximizing layer
and +inf on a minimizing layer and a candidate replaces the incumbent
only on strict improvement, so ties keep the earliest-found move and the
first candidate replaces the initial best unless its value equals the
initial bound; the returned move is an element of the legal-move list of
the node unless every candidate value equals the bound (minimax), resp.
unless the final best utility equals the bound (alphabeta), in which case
the sentinel is returned. -/
theorem C4_amended_strict_improvement (d : Nat) (g : GState) (mx : Bool)
    (a b : Val) (hc : g.children ≠ []) : C4Prop d g mx a b := by
  obtain ⟨sa, si, cs⟩ := g
  cases cs with
  | nil => exact absurd rfl hc
  | cons p l =>
    refine ⟨?_, ?_, ?_⟩
    · cases mx with
      | true =>
        rw [minimax_succ_cons]
        rcases mmLoop_spec_max (fun c => (minimax d c (!true)).1) (p :: l)
          (bestInit true, noMove) with ⟨heq, hall⟩ | hex
        · left
          refine ⟨heq, ?_⟩
          intro w hw
          rcases List.mem_map.mp hw with ⟨q, hq, rfl⟩
          exact le_bot_iff.mp (hall q hq)
        · right
          exact hex
      | false =>
        rw [minimax_succ_cons]
        rcases mmLoop_spec_min (fun c => (minimax d c (!false)).1) (p :: l)
          (bestInit false, noMove) with ⟨heq, hall⟩ | hex
        · left
          refine ⟨heq, ?_⟩
          intro w hw
          rcases List.mem_map.mp hw with ⟨q, hq, rfl⟩
          exact top_le_iff.mp (hall q hq)
        · right
          exact hex
    · cases mx with
      | true =>
        rw [alphabeta_succ_cons]
        rcases abLoop_stay_max (fun a1 b1 c => (alphabeta d c a1 b1 (!true)).1)
          (p :: l) a b (bestInit true, noMove) with heq | ⟨hlt, hmem⟩
        · intro _; rw [heq]
        · intro hval
          rw [hval] at hlt
          exact absurd hlt (lt_irrefl _)
      | false =>
        rw [alphabeta_succ_cons]
        rcases abLoop_stay_min (fun a1 b1 c => (alphabeta d c a1 b1 (!false)).1)
          (p :: l) a b (bestInit false, noMove) with heq | ⟨hlt, hmem⟩
        · intro _; rw [heq]
        · intro hval
          rw [hval] at hlt
          exact absurd hlt (lt_irrefl _)
    · cases mx with
      | true =>
        rw [alphabeta_succ_cons]
        rcases abLoop_stay_max (fun a1 b1 c => (alphabeta d c a1 b1 (!true)).1)
          (p :: l) a b (bestInit true, noMove) with heq | ⟨hlt, hmem⟩
        · left; rw [heq]
        · right; exact hmem
      | false =>
        rw [alphabeta_succ_cons]
        rcases abLoop_stay_min (fun a1 b1 c => (alphabeta d c a1 b1 (!false)).1)
          (p :: l) a b (bestInit false, noMove) with heq | ⟨hlt, hmem⟩
        · left; rw [heq]
        · right; exact hmem

/-- C4 witness at a concrete interior node. -/
theorem C4_witness : C4Prop 0 gStep true Val.negInf Val.posInf :=
  C4_amended_strict_improvement 0 gStep true Val.negInf Val.posInf
    (by simp [gStep, GState.children])

/-- C2: get_move of the fixed-depth minimax agent at depth 2, on a state
with one legal move whose search value is minus infinity (a forced loss
within the horizon) and with an ample deadline oracle, returns the
sentinel (-1, -1) even though the legal-move sequence of the state is
nonempty: the sentinel is not returned if and only if the sequence is
empty, contradicting the get_move docstring and the spec. -/
theorem C2_sentinel_despite_legal_moves :
    getMove cfgFix2 gTrap (movesOf gTrap) (fun _ => 100) 0 = .move noMove
    ∧ movesOf gTrap ≠ [] := ⟨by decide, by decide⟩

/-- C3: with the default configuration (iterative minimax, threshold 10)
and a deadline oracle reporting 0 ms on the very first call, the first
depth-1 search raises Timeout before the local best_move was ever
assigned; the except handler then evaluates the unassigned local and
UnboundLocalError escapes to the caller instead of a fallback move or
the sentinel. -/
theorem C3_unbound_local_crash :
    getMove cfgDefault gTrap (movesOf gTrap) (fun _ => 0) 1 = .nameError := by
  decide

/-- C8: for every state with at least one legal move, a configured method
string that is neither minimax nor alphabeta makes get_move raise
ValueError to the caller instead of returning a move, in both iterative
and fixed-depth modes. -/
theorem C8_invalid_method_raises (sd : Nat) (thr : ℚ) (meth : String)
    (g : GState) (lm : List Move) (o : Oracle) (fuel : Nat)
    (h1 : meth ≠ "minimax") (h2 : meth ≠ "alphabeta") (hl : lm ≠ []) :
    getMove { search_depth := sd, iterative := true, method := meth, thr := thr }
        g lm o (fuel + 1) = .valueError
    ∧ getMove { search_depth := sd, iterative := false, method := meth, thr := thr }
        g lm o (fuel + 1) = .valueError := by
  constructor
  · simp [getMove, hl, iterLoop, h1, h2]
  · simp [getMove, hl, h1, h2]

/-- C8 witness at a concrete invalid method. -/
theorem C8_witness :
    getMove { search_depth := 3, iterative := true, method := "foo", thr := 10 }
        gTrap [(0, 0)] (fun _ => 100) 1 = .valueError
    ∧ getMove { search_depth := 3, iterative := false, method := "foo", thr := 10 }
        gTrap [(0, 0)] (fun _ => 100) 1 = .valueError :=
  C8_invalid_method_raises 3 10 "foo" gTrap [(0, 0)] (fun _ => 100) 0
    (by decide) (by decide) (by decide)

/-- C9: with iterative deepening enabled and at least one legal move, the
deepening loop of get_move has no depth bound and no game-tree-exhaustion
exit: for a deadline oracle that always reports at least the threshold
and strictly more than 0.001 ms, get_move never returns, however much
fuel the loop model is given, for either search method. -/
theorem C9_iterative_never_returns (sd : Nat) (thr : ℚ) (g : GState)
    (lm : List Move) (o : Oracle) (fuel : Nat)
    (hl : lm ≠ []) (ho : ∀ n, thr ≤ o n) (hq : ∀ n, msEps < o n) :
    getMove { search_depth := sd, iterative := true, method := "minimax", thr := thr }
        g lm o fuel = .fuelOut
    ∧ getMove { search_depth := sd, iterative := true, method := "alphabeta", thr := thr }
        g lm o fuel = .fuelOut := by
  constructor
  · simp only [getMove, if_neg hl, if_pos rfl]
    exact iterLoop_fuelOut_mm _ g o rfl ho hq fuel 0 0 none
  · simp only [getMove, if_neg hl, if_pos rfl]
    exact iterLoop_fuelOut_ab _ g o rfl ho hq fuel 0 0 none

/-- C9 witness at a concrete state, oracle and fuel. -/
theorem C9_witness :
    getMove { search_depth := 3, iterative := true, method := "minimax", thr := 10 }
        gTrap [(0, 0)] (fun _ => 100) 5 = .fuelOut
    ∧ getMove { search_depth := 3, iterative := true, method := "alphabeta", thr := 10 }
        gTrap [(0, 0)] (fun _ => 100) 5 = .fuelOut :=
  C9_iterative_never_returns 3 10 gTrap [(0, 0)] (fun _ => 100) 5
    (by decide) (fun _ => by norm_num) (fun _ => by norm_num [msEps])

/-- C10: the competition get_move initialises best_move to the sentinel
before the search loop, so whenever Timeout is raised anywhere during
the first search of the loop (so no depth ever completed, whether the
abort happens at the root query or deep inside the first search) it
returns the sentinel to the caller even though the active player has
legal moves, rather than raising or returning a partial cutoff move. -/
theorem C10_comp_sentinel_on_first_timeout (thr : ℚ) (g : GState)
    (o : Oracle) (depth0 : Nat) (fuel : Nat)
    (hg : g.children ≠ [])
    (h0 : alphabetaT o thr (depth0 + 1) g Val.negInf Val.posInf true 0
        = .error ()) :
    getMoveComp thr g o depth0 (fuel + 1) = .move noMove := by
  have hmv : movesOf g ≠ [] := by
    intro h
    exact hg (List.map_eq_nil_iff.mp h)
  rw [getMoveComp, if_neg hmv]
  simp [compLoop, h0]

/-- C10 witness at a concrete state and an oracle that passes the first
query (100 ms at the root) but times out at a child node in the middle
of the first search. -/
theorem C10_witness :
    getMoveComp 10 gTrap (fun n => if n = 0 then (100 : ℚ) else 0) 9 1
      = .move noMove :=
  C10_comp_sentinel_on_first_timeout 10 gTrap
    (fun n => if n = 0 then (100 : ℚ) else 0) 9 0
    (by simp [gTrap, GState.children]) rfl
